import Mathlib

/-!
Verification of the skill-management CLI (`bin/cli.js`).

The filesystem is modelled as a finite labelled tree: an `Entry` is either a
file with string contents or a directory holding a finite association list of
named child entries (`EntryList`).  Paths are lists of path components
(`List String`); a CLI argument is a `String` that is split on `'/'`.

Each operation of the CLI is translated from the source:
* `getLocalSkillsFrom` — the recursive skill scanner `getLocalSkills`
  (cli.js lines 13-32);
* `walkInstalledFrom` / `listInstalled` — the installed-skill walker of the
  `list` command (lines 76-105);
* `installLocalSkill` — the installer (lines 34-51);
* `syncInstallAll` / `syncCommand` — the no-argument `sync` command
  (lines 127-131);
* `addCommand` — the `add <target>` command handler (lines 148-172);
* `removeCommand` — the `remove <name>` command handler (lines 174-188);
* `fetchAndInstall` — the remote fetcher, which is not present in the
  repository's own code (the CLI only spawns the external `npx skills`
  process via `runSkillsCLI`, lines 53-59); it is modelled from the spec.
-/

mutual

inductive Entry where
  | file (data : String)
  | dir (children : EntryList)

inductive EntryList where
  | nil
  | cons (name : String) (entry : Entry) (rest : EntryList)

end

/-- Association-list search among the children of a directory: the model of
resolving one path component (`readdirSync` + name comparison). -/
def EntryList.find : EntryList → String → Option Entry
  | .nil, _ => none
  | .cons m c rest, n => if m = n then some c else rest.find n

/-- Does some child binding carry the given name? -/
def EntryList.hasKey : EntryList → String → Bool
  | .nil, _ => false
  | .cons m _ rest, n => (m = n) || rest.hasKey n

/-- Child names are pairwise distinct (real directories never hold two
entries with the same name). -/
def EntryList.nodupKeys : EntryList → Bool
  | .nil => true
  | .cons m _ rest => !(rest.hasKey m) && rest.nodupKeys

mutual

/-- Well-formed tree: every directory's child names are pairwise distinct. -/
def wfE : Entry → Bool
  | .file _ => true
  | .dir cs => cs.nodupKeys && wfL cs

def wfL : EntryList → Bool
  | .nil => true
  | .cons _ c rest => wfE c && wfL rest

end

/-- Replace the first binding with the given name by a new entry; keys are
unchanged. -/
def EntryList.replace : EntryList → String → Entry → EntryList
  | .nil, _, _ => .nil
  | .cons m c rest, n, v => if m = n then .cons m v rest else .cons m c (rest.replace n v)

/-- Append a new binding at the end of the children list. -/
def EntryList.push : EntryList → String → Entry → EntryList
  | .nil, n, v => .cons n v .nil
  | .cons m c rest, n, v => .cons m c (rest.push n v)

/-- Delete the first binding with the given name. -/
def EntryList.erase : EntryList → String → EntryList
  | .nil, _ => .nil
  | .cons m c rest, n => if m = n then rest else .cons m c (rest.erase n)

/-- Resolve a relative path inside a tree; `none` models a path for which
`fs.existsSync` is false (including paths leading through a plain file). -/
def lookup : Entry → List String → Option Entry
  | e, [] => some e
  | .file _, _ :: _ => none
  | .dir cs, n :: rest =>
    match cs.find n with
    | none => none
    | some c => lookup c rest

/-- The fixed set of infrastructure directory names the scanner skips
(cli.js line 22). -/
def excludedDirs : List String := ["bin", ".git", "node_modules"]

/-- The manifest-marker check `fs.existsSync(path.join(fullPath, 'SKILL.md'))`
(cli.js line 24): some child entry named `SKILL.md` exists. -/
def hasMarker : Entry → Bool
  | .file _ => false
  | .dir cs => (cs.find "SKILL.md").isSome

/-- A path resolves to an entry that directly contains the manifest marker. -/
def markerAt (root : Entry) (p : List String) : Bool :=
  match lookup root p with
  | some e => hasMarker e
  | none => false

/-- No component of the path is an excluded infrastructure directory name. -/
def allowedPath (p : List String) : Bool :=
  p.all (fun c => decide (¬ c ∈ excludedDirs))

mutual

/-- Translation of `getLocalSkills` (cli.js lines 13-32) started at directory
`e` reached from the root by the components `pre`: iterate the children in
order; plain files are ignored (`stat.isDirectory()`); a subdirectory whose
name is excluded is skipped entirely (`continue`); otherwise its relative
path is pushed when it directly holds `SKILL.md`, and the walk then descends
into it regardless of the match.  The source calls the function only on
directories (`readdirSync` would throw on a file), so the `file` case is
vacuous. -/
def getLocalSkillsFrom (pre : List String) : Entry → List (List String)
  | .file _ => []
  | .dir cs => getLocalSkillsList pre cs

def getLocalSkillsList (pre : List String) : EntryList → List (List String)
  | .nil => []
  | .cons n c rest =>
    (match c with
     | .file _ => []
     | .dir cs =>
       if n ∈ excludedDirs then []
       else
         (if hasMarker (.dir cs) then [pre ++ [n]] else [])
           ++ getLocalSkillsFrom (pre ++ [n]) (.dir cs))
      ++ getLocalSkillsList pre rest

end

/-- The scanner `getLocalSkills()` applied to the repository root. -/
def getLocalSkills (root : Entry) : List (List String) :=
  getLocalSkillsFrom [] root

mutual

/-- Translation of `walkInstalled` in the `list` command (cli.js lines
85-97): identical walk to the scanner except that no directory name is
excluded from traversal. -/
def walkInstalledFrom (pre : List String) : Entry → List (List String)
  | .file _ => []
  | .dir cs => walkInstalledList pre cs

def walkInstalledList (pre : List String) : EntryList → List (List String)
  | .nil => []
  | .cons n c rest =>
    (match c with
     | .file _ => []
     | .dir cs =>
       (if hasMarker (.dir cs) then [pre ++ [n]] else [])
         ++ walkInstalledFrom (pre ++ [n]) (.dir cs))
      ++ walkInstalledList pre rest

end

/-- Installed-skill enumeration of the `list` command (cli.js lines 83-103):
the walk runs only when `fs.existsSync(skillsDir)`; a Store that was never
created yields the empty enumeration (`' None.'`), not an error.  `none`
models a non-existent `skillsDir`. -/
def listInstalled : Option Entry → List (List String)
  | none => []
  | some store => walkInstalledFrom [] store

mutual

/-- No directory anywhere in the tree bears an excluded infrastructure name
(files with such names are irrelevant: the walkers skip plain files). -/
def noExclE : Entry → Bool
  | .file _ => true
  | .dir cs => noExclL cs

def noExclL : EntryList → Bool
  | .nil => true
  | .cons n c rest =>
    (match c with
     | .dir _ => decide (¬ n ∈ excludedDirs)
     | .file _ => true) && noExclE c && noExclL rest

end

/-- `fs.mkdirSync(path, { recursive: true })` (cli.js line 46): walk down the
path, descending through existing directories and creating missing ones;
hitting an existing plain file on the way raises `ENOTDIR`/`EEXIST`, modelled
as `none`.  A failing call creates nothing: the conflicting file is part of
the already-existing chain, so creation has not started when the error is
raised. -/
def mkdirp : Entry → List String → Option Entry
  | .dir cs, [] => some (.dir cs)
  | .file _, [] => none
  | .file _, _ :: _ => none
  | .dir cs, n :: rest =>
    match cs.find n with
    | some c => (mkdirp c rest).map (fun c2 => .dir (cs.replace n c2))
    | none => (mkdirp (.dir .nil) rest).map (fun c2 => .dir (cs.push n c2))

/-- `fs.cpSync(sourcePath, targetPath, { recursive: true })` (cli.js line
49), destination side: place a full copy of the source subtree at the target
path, creating missing intermediate directories; an existing plain file on
the target's path raises `ENOTDIR`, modelled as `none`.  The installer calls
this only when the target path does not yet exist, so the `[]` case
(overwriting the walked-to entry itself) is unreachable there. -/
def insertAt : Entry → List String → Entry → Option Entry
  | _, [], v => some v
  | .file _, _ :: _, _ => none
  | .dir cs, n :: rest, v =>
    match cs.find n with
    | some c => (insertAt c rest v).map (fun c2 => .dir (cs.replace n c2))
    | none => (insertAt (.dir .nil) rest v).map (fun c2 => .dir (cs.push n c2))

/-- `fs.rmSync(targetPath, { recursive: true, ... })` (cli.js line 182):
recursively delete the entry at the path.  The command only calls it after
`fs.existsSync(targetPath)` succeeded.  Deleting the root itself (`[]`) is
not representable inside the tree and is unreachable from the claims. -/
def removeAt : Entry → List String → Entry
  | e, [] => e
  | .file d, _ :: _ => .file d
  | .dir cs, n :: rest =>
    match rest with
    | [] => .dir (cs.erase n)
    | _ :: _ =>
      match cs.find n with
      | none => .dir cs
      | some c => .dir (cs.replace n (removeAt c rest))

/-- Outcome of one `installLocalSkill` call: `skipped` prints the
already-exists message and returns; `installed` is the success print;
`errored` models an exception thrown by `mkdirSync`/`cpSync` propagating to
the caller. -/
inductive InstallResult where
  | installed
  | skipped
  | errored
deriving DecidableEq, Repr

/-- Translation of `installLocalSkill(skillPath)` (cli.js lines 34-51) over
the two roots `repo` (= `repoDir`) and `store` (= `skillsDir`):
if any entry already exists at `store/skillPath`, skip and change nothing;
otherwise create the target's parent directories when the parent path does
not exist, then deep-copy `repo/skillPath` to `store/skillPath`.  The thrown
branches return the Store as it stands at the throw site (directories made
by the earlier `mkdirSync` persist).  The Store root is modelled as an
existing (possibly empty) directory: `mkdirSync` with `recursive` would
create it on demand, with the same resulting tree. -/
def installLocalSkill (repo store : Entry) (skillPath : List String) : InstallResult × Entry :=
  if (lookup store skillPath).isSome then (.skipped, store)
  else
    match (if (lookup store skillPath.dropLast).isSome then some store
           else mkdirp store skillPath.dropLast) with
    | none => (.errored, store)
    | some store1 =>
      match lookup repo skillPath with
      | none => (.errored, store1)
      | some src =>
        match insertAt store1 skillPath src with
        | none => (.errored, store1)
        | some store2 => (.installed, store2)

/-- Outcome of the no-argument `sync` command: `completed` reaches
`process.exit(0)` (cli.js line 133); `crashed` models an exception from one
`installLocalSkill` call escaping `skills.forEach(...)` (line 130) — the
process dies with a non-zero status and the listed skills are never
attempted. -/
inductive SyncOutcome where
  | completed (store : Entry)
  | crashed (store : Entry) (notAttempted : List (List String))

/-- The loop `skills.forEach(s => installLocalSkill(s))` (cli.js line 130):
sequential installs with no per-skill error handling. -/
def syncInstallAll (repo : Entry) (store : Entry) : List (List String) → SyncOutcome
  | [] => .completed store
  | p :: ps =>
    match installLocalSkill repo store p with
    | (.errored, store1) => .crashed store1 ps
    | (_, store1) => syncInstallAll repo store1 ps

/-- The no-argument `sync` command (cli.js lines 127-133): scan the local
repository, then install every result. -/
def syncCommand (repo store : Entry) : SyncOutcome :=
  syncInstallAll repo store (getLocalSkills repo)

/-- Split a CLI path argument on `'/'`, the separator `path.join` resolves. -/
def splitSegs (cur : List Char) : List Char → List String
  | [] => [String.mk cur.reverse]
  | c :: rest =>
    if c = '/' then String.mk cur.reverse :: splitSegs [] rest
    else splitSegs (c :: cur) rest

/-- Components of a CLI path argument. -/
def splitPath (s : String) : List String :=
  splitSegs [] s.data

/-- `path.join(base, segments)` on an absolute base path: append the
segments, resolving `..` against the accumulated path and dropping `.` and
empty components — the normalisation `path.join` performs. -/
def normJoin (base : List String) (segs : List String) : List String :=
  segs.foldl
    (fun acc seg =>
      if seg = ".." then acc.dropLast
      else if seg = "." || seg = "" then acc
      else acc ++ [seg])
    base

/-- Outcome of the `add <target>` command handler (cli.js lines 148-172). -/
inductive AddOutcome where
  | delegatedRemote
  | exitNotFound
  | exitNoManifest
  | localResult (r : InstallResult) (store : Entry)

/-- Translation of the `add` handler (cli.js lines 148-172): a target that
starts with `http` **or contains `'/'` anywhere** is handed to the external
`skills.sh` CLI (`runSkillsCLI(['add', target, ...])`, line 158); only a
target with neither goes to the local branch, which exits 1 when
`repoDir/target` is missing (line 163) or lacks `SKILL.md` (line 167) and
otherwise runs `installLocalSkill`. -/
def addCommand (repo store : Entry) (target : String) : AddOutcome :=
  if List.isPrefixOf "http".data target.data || target.data.contains '/' then
    .delegatedRemote
  else
    let p := splitPath target
    if (lookup repo p).isSome = false then .exitNotFound
    else if (lookup repo (p ++ ["SKILL.md"])).isSome = false then .exitNoManifest
    else
      let r := installLocalSkill repo store p
      .localResult r.1 r.2

/-- Outcome of the `remove <name>` command handler.  Both constructors reach
`process.exit(0)` (cli.js line 187): in the `delegated` branch the handler
spawns `npx skills remove ...` (line 185) and the synchronous
`process.exit(0)` on line 187 runs before the child's exit callback can
fire, so the handler itself always exits 0. -/
inductive RemoveOutcome where
  | removed (target : List String)
  | delegated
deriving DecidableEq, Repr

/-- Exit status of the `remove` handler (cli.js lines 181-187): 0 on both
branches, as explained at `RemoveOutcome`. -/
def removeExitCode : RemoveOutcome → Nat
  | .removed _ => 0
  | .delegated => 0

/-- Translation of the `remove` handler (cli.js lines 174-188) over the
whole filesystem `fs` in which the Store lives at `storePath`:
`targetPath = path.join(skillsDir, skillName)` with no validation of the
name, so `..` segments are resolved against the Store path; when some entry
exists there it is deleted recursively, otherwise removal is delegated to
the external `skills.sh` CLI and the local filesystem is untouched. -/
def removeCommand (fs : Entry) (storePath : List String) (skillName : String) :
    RemoveOutcome × Entry :=
  let target := normJoin storePath (splitPath skillName)
  if (lookup fs target).isSome then (.removed target, removeAt fs target)
  else (.delegated, fs)

/-- Strip a trailing `.git` from a URL basename (spec §4.4). -/
def stripGitSuffix (s : String) : String :=
  if List.isSuffixOf ".git".data s.data then String.mk (s.data.take (s.data.length - 4)) else s

/-- A synthetic root that holds the entry `v` at the path `p`, used to hand
an arbitrary source directory to the installer. -/
def entryAt : List String → Entry → Entry
  | [], v => v
  | n :: rest, v => .dir (.cons n (entryAt rest v) .nil)

/-- Outcome of one remote fetch-and-install operation. -/
inductive FetchOutcome where
  | fetchFailed
  | invalidSkill
  | installReport (r : InstallResult)

/-- State after a remote fetch-and-install returns: the Store, the reported
outcome, and whether the temporary clone directory created by the call is
still on disk. -/
structure FetchResult where
  outcome : FetchOutcome
  store : Entry
  tempCloneRemains : Bool

/-- Modelled from the spec: the Remote Fetcher `fetchAndInstall(remoteUrl,
identifier?, subpath?)` of §4.4 is not part of this repository's code — the
CLI delegates remote installs to the external `skills.sh` tool (`runSkillsCLI`
in cli.js lines 53-59 only spawns `npx skills ...`), so the operation is
reconstructed from the spec's words.  `cloneOutcome` is the result of the
shallow clone into a fresh temporary directory (`none` = clone failure,
reported as `FetchFailed`); with a `subpath` the effective source is
`tempClone/subpath` and the identifier defaults to the subpath's basename,
without one the clone root itself is the source and the identifier defaults
to the URL basename with `.git` stripped; a resolved source that does not
directly contain `SKILL.md` is `InvalidSkill`; otherwise the source subtree
is handed to the Installer under the effective identifier.  On every exit
path the temporary clone is deleted before returning, recorded in
`tempCloneRemains`. -/
def fetchAndInstall (url : String) (identifier : Option (List String))
    (subpath : Option (List String)) (cloneOutcome : Option Entry)
    (store : Entry) : FetchResult :=
  match cloneOutcome with
  | none => { outcome := .fetchFailed, store := store, tempCloneRemains := false }
  | some clone =>
    let effSrc : Option Entry :=
      match subpath with
      | some sp => lookup clone sp
      | none => some clone
    let effId : List String :=
      match identifier with
      | some i => i
      | none =>
        match subpath with
        | some sp => [sp.getLastD ""]
        | none => [stripGitSuffix ((splitPath url).getLastD "")]
    match effSrc with
    | none => { outcome := .invalidSkill, store := store, tempCloneRemains := false }
    | some src =>
      if hasMarker src then
        let r := installLocalSkill (entryAt effId src) store effId
        { outcome := .installReport r.1, store := r.2, tempCloneRemains := false }
      else { outcome := .invalidSkill, store := store, tempCloneRemains := false }

/-- The manifest marker file of the demonstration trees. -/
def markerFile : Entry := .file "marker"

/-- A concrete repository tree shaped like this repository: a `bin`
directory with the CLI, a nested skill `mobile/android-expert` holding the
marker and reference material, and a category directory without a marker. -/
def demoRepo : Entry :=
  .dir (.cons "bin" (.dir (.cons "cli.js" (.file "code") .nil))
    (.cons "mobile"
      (.dir (.cons "android-expert"
        (.dir (.cons "SKILL.md" markerFile
          (.cons "references"
            (.dir (.cons "android-navigation.md" (.file "nav") .nil)) .nil)))
        .nil))
      (.cons "web"
        (.dir (.cons "seo" (.dir (.cons "SKILL.md" markerFile .nil)) .nil))
        .nil)))

/-- An empty Store directory. -/
def emptyStore : Entry := .dir .nil

/-- A repository holding a skill inside a directory named `bin`: the
directory directly contains the marker, yet the scanner prunes it. -/
def binSkillRepo : Entry :=
  .dir (.cons "bin" (.dir (.cons "SKILL.md" markerFile .nil)) .nil)

/-- A Store holding a skill under `node_modules`: the installed-skill walker
reports it, the scanner would prune it. -/
def nodeModulesStore : Entry :=
  .dir (.cons "node_modules"
    (.dir (.cons "foo" (.dir (.cons "SKILL.md" markerFile .nil)) .nil)) .nil)

/-- A Store whose entry `mobile` is a plain file: installing any skill under
`mobile/` makes `cpSync` throw `ENOTDIR`. -/
def fileBlockedStore : Entry := .dir (.cons "mobile" (.file "stray") .nil)

/-- The absolute Store path `~/.gemini/antigravity/skills` as components. -/
def demoStorePath : List String := ["home", "user", ".gemini", "antigravity", "skills"]

/-- A filesystem in which the Store (empty) and a sibling `victim` directory
live at their real locations under the user's home. -/
def demoFs : Entry :=
  entryAt ["home", "user", ".gemini", "antigravity"]
    (.dir (.cons "skills" (.dir .nil)
      (.cons "victim" (.dir (.cons "data.txt" (.file "d") .nil)) .nil)))

/-- A filesystem whose Store already holds an installed skill `oldskill`. -/
def demoFsInstalled : Entry :=
  entryAt ["home", "user", ".gemini", "antigravity"]
    (.dir (.cons "skills"
      (.dir (.cons "oldskill" (.dir (.cons "SKILL.md" markerFile .nil)) .nil)) .nil))

theorem entry_mutual_induction (P : Entry → Prop) (Q : EntryList → Prop)
    (h1 : ∀ d, P (.file d)) (h2 : ∀ cs, Q cs → P (.dir cs))
    (h3 : Q .nil) (h4 : ∀ n c rest, P c → Q rest → Q (.cons n c rest)) :
    (∀ e, P e) ∧ (∀ cs, Q cs) :=
  ⟨fun e => Entry.rec h1 h2 h3 h4 e, fun cs => EntryList.rec h1 h2 h3 h4 cs⟩

theorem entryList_induction (Q : EntryList → Prop) (h3 : Q .nil)
    (h4 : ∀ n c rest, Q rest → Q (.cons n c rest)) : ∀ cs, Q cs :=
  fun cs => @EntryList.rec (fun _ => True) Q (fun _ => trivial) (fun _ _ => trivial)
    h3 (fun n c rest _ ih => h4 n c rest ih) cs

theorem find_isSome_eq_hasKey (cs : EntryList) (n : String) :
    (cs.find n).isSome = cs.hasKey n := by
  induction cs using entryList_induction with
  | h3 => simp [EntryList.find, EntryList.hasKey]
  | h4 m c rest ih =>
    by_cases h : m = n <;> simp [EntryList.find, EntryList.hasKey, h, ih]

theorem find_replace_self (cs : EntryList) (n : String) (c v : Entry)
    (h : cs.find n = some c) : (cs.replace n v).find n = some v := by
  induction cs using entryList_induction with
  | h3 => simp [EntryList.find] at h
  | h4 m c0 rest ih =>
    by_cases hm : m = n <;>
      simp_all [EntryList.find, EntryList.replace, hm]

theorem hasKey_replace (cs : EntryList) (n m : String) (v : Entry) :
    (cs.replace n v).hasKey m = cs.hasKey m := by
  induction cs using entryList_induction with
  | h3 => simp [EntryList.replace]
  | h4 k c rest ih =>
    by_cases hk : k = n <;> simp [EntryList.replace, EntryList.hasKey, hk, ih]

theorem nodup_replace (cs : EntryList) (n : String) (v : Entry) :
    (cs.replace n v).nodupKeys = cs.nodupKeys := by
  induction cs using entryList_induction with
  | h3 => simp [EntryList.replace]
  | h4 k c rest ih =>
    by_cases hk : k = n <;>
      simp [EntryList.replace, EntryList.nodupKeys, hk, ih, hasKey_replace]

theorem find_push_self (cs : EntryList) (n : String) (v : Entry)
    (h : cs.find n = none) : (cs.push n v).find n = some v := by
  induction cs using entryList_induction with
  | h3 => simp [EntryList.push, EntryList.find]
  | h4 m c rest ih =>
    by_cases hm : m = n <;> simp_all [EntryList.find, EntryList.push, hm]

theorem hasKey_push (cs : EntryList) (n m : String) (v : Entry) :
    (cs.push n v).hasKey m = (cs.hasKey m || (n = m : Bool)) := by
  induction cs using entryList_induction with
  | h3 => simp [EntryList.push, EntryList.hasKey]
  | h4 k c rest ih => simp [EntryList.push, EntryList.hasKey, ih, Bool.or_assoc]

theorem nodup_push (cs : EntryList) (n : String) (v : Entry)
    (hn : cs.hasKey n = false) (hd : cs.nodupKeys = true) :
    (cs.push n v).nodupKeys = true := by
  induction cs using entryList_induction with
  | h3 => simp [EntryList.push, EntryList.nodupKeys, EntryList.hasKey]
  | h4 k c rest ih =>
    simp_all [EntryList.push, EntryList.nodupKeys, EntryList.hasKey, hasKey_push]
    intro hkn
    exact absurd hkn.symm hn.1

theorem wfL_find (cs : EntryList) (n : String) (c : Entry)
    (hw : wfL cs = true) (h : cs.find n = some c) : wfE c = true := by
  induction cs using entryList_induction with
  | h3 => simp [EntryList.find] at h
  | h4 m c0 rest ih =>
    by_cases hm : m = n <;> simp_all [EntryList.find, wfL, hm]

theorem wfL_replace (cs : EntryList) (n : String) (v : Entry)
    (hw : wfL cs = true) (hv : wfE v = true) : wfL (cs.replace n v) = true := by
  induction cs using entryList_induction with
  | h3 => simp [EntryList.replace, wfL]
  | h4 m c rest ih =>
    by_cases hm : m = n <;> simp_all [EntryList.replace, wfL, hm]

theorem wfL_push (cs : EntryList) (n : String) (v : Entry)
    (hw : wfL cs = true) (hv : wfE v = true) : wfL (cs.push n v) = true := by
  induction cs using entryList_induction with
  | h3 => simp [EntryList.push, wfL, hv]
  | h4 m c rest ih => simp_all [EntryList.push, wfL]

theorem hasKey_false_find (cs : EntryList) (n : String)
    (h : cs.hasKey n = false) : cs.find n = none := by
  have := find_isSome_eq_hasKey cs n
  rw [h] at this
  exact Option.not_isSome_iff_eq_none.mp (by simp [this])

theorem find_erase_self (cs : EntryList) (n : String)
    (hd : cs.nodupKeys = true) : (cs.erase n).find n = none := by
  induction cs using entryList_induction with
  | h3 => simp [EntryList.erase, EntryList.find]
  | h4 m c rest ih =>
    by_cases hm : m = n
    · subst hm
      simp [EntryList.nodupKeys] at hd
      simpa [EntryList.erase] using hasKey_false_find rest m hd.1
    · simp_all [EntryList.erase, EntryList.find, EntryList.nodupKeys, hm]

theorem wf_lookup (p : List String) (e v : Entry)
    (hw : wfE e = true) (h : lookup e p = some v) : wfE v = true := by
  induction p generalizing e with
  | nil => simp [lookup] at h; rwa [← h]
  | cons n rest ih =>
    cases e with
    | file d => simp [lookup] at h
    | dir cs =>
      simp only [lookup] at h
      rcases hf : cs.find n with _ | c
      · rw [hf] at h; simp at h
      · rw [hf] at h
        simp only [wfE, Bool.and_eq_true] at hw
        exact ih c (wfL_find cs n c hw.2 hf) h

theorem insertAt_lookup (p : List String) (e v e2 : Entry)
    (h : insertAt e p v = some e2) : lookup e2 p = some v := by
  induction p generalizing e e2 with
  | nil => simp [insertAt] at h; simp [lookup, h]
  | cons n rest ih =>
    cases e with
    | file d => simp [insertAt] at h
    | dir cs =>
      rcases hf : cs.find n with _ | c
      · simp only [insertAt, hf] at h
        rcases hi : insertAt (.dir .nil) rest v with _ | c2 <;> rw [hi] at h
        · simp at h
        · simp at h
          subst h
          simp [lookup, find_push_self cs n c2 hf]
          exact ih _ _ hi
      · simp only [insertAt, hf] at h
        rcases hi : insertAt c rest v with _ | c2 <;> rw [hi] at h
        · simp at h
        · simp at h
          subst h
          simp [lookup, find_replace_self cs n c c2 hf]
          exact ih _ _ hi

theorem wf_insertAt (p : List String) (e v e2 : Entry)
    (hw : wfE e = true) (hv : wfE v = true) (h : insertAt e p v = some e2) :
    wfE e2 = true := by
  induction p generalizing e e2 with
  | nil => simp [insertAt] at h; rwa [← h]
  | cons n rest ih =>
    cases e with
    | file d => simp [insertAt] at h
    | dir cs =>
      simp only [wfE, Bool.and_eq_true] at hw
      rcases hf : cs.find n with _ | c
      · simp only [insertAt, hf] at h
        rcases hi : insertAt (.dir .nil) rest v with _ | c2 <;> rw [hi] at h
        · simp at h
        · simp at h
          subst h
          have hc2 : wfE c2 = true :=
            ih (.dir .nil) c2 (by simp [wfE, EntryList.nodupKeys, wfL]) hi
          have hk : cs.hasKey n = false := by
            have := find_isSome_eq_hasKey cs n
            rw [hf] at this; simpa using this.symm
          simp [wfE, nodup_push cs n c2 hk hw.1, wfL_push cs n c2 hw.2 hc2]
      · simp only [insertAt, hf] at h
        rcases hi : insertAt c rest v with _ | c2 <;> rw [hi] at h
        · simp at h
        · simp at h
          subst h
          have hc2 : wfE c2 = true := ih c c2 (wfL_find cs n c hw.2 hf) hi
          simp [wfE, nodup_replace, hw.1, wfL_replace cs n c2 hw.2 hc2]

theorem wf_mkdirp (p : List String) (e e2 : Entry)
    (hw : wfE e = true) (h : mkdirp e p = some e2) : wfE e2 = true := by
  induction p generalizing e e2 with
  | nil =>
    cases e with
    | file d => simp [mkdirp] at h
    | dir cs => simp [mkdirp] at h; rwa [← h]
  | cons n rest ih =>
    cases e with
    | file d => simp [mkdirp] at h
    | dir cs =>
      simp only [wfE, Bool.and_eq_true] at hw
      rcases hf : cs.find n with _ | c
      · simp only [mkdirp, hf] at h
        rcases hi : mkdirp (.dir .nil) rest with _ | c2 <;> rw [hi] at h
        · simp at h
        · simp at h
          subst h
          have hc2 : wfE c2 = true :=
            ih (.dir .nil) c2 (by simp [wfE, EntryList.nodupKeys, wfL]) hi
          have hk : cs.hasKey n = false := by
            have := find_isSome_eq_hasKey cs n
            rw [hf] at this; simpa using this.symm
          simp [wfE, nodup_push cs n c2 hk hw.1, wfL_push cs n c2 hw.2 hc2]
      · simp only [mkdirp, hf] at h
        rcases hi : mkdirp c rest with _ | c2 <;> rw [hi] at h
        · simp at h
        · simp at h
          subst h
          have hc2 : wfE c2 = true := ih c c2 (wfL_find cs n c hw.2 hf) hi
          simp [wfE, nodup_replace, hw.1, wfL_replace cs n c2 hw.2 hc2]

theorem removeAt_lookup (p : List String) (e : Entry)
    (hp : p ≠ []) (hw : wfE e = true) : lookup (removeAt e p) p = none := by
  induction p generalizing e with
  | nil => exact absurd rfl hp
  | cons n rest ih =>
    cases e with
    | file d => simp [removeAt, lookup]
    | dir cs =>
      simp only [wfE, Bool.and_eq_true] at hw
      cases rest with
      | nil =>
        simp only [removeAt, lookup]
        rw [find_erase_self cs n hw.1]
      | cons m rest2 =>
        simp only [removeAt]
        rcases hf : cs.find n with _ | c
        · simp [lookup, hf]
        · simp only [lookup,
            find_replace_self cs n c (removeAt c (m :: rest2)) hf]
          exact ih c (by simp) (wfL_find cs n c hw.2 hf)

theorem markerAt_nil (e : Entry) : markerAt e [] = hasMarker e := by
  simp [markerAt, lookup]

theorem markerAt_file (d : String) (s : List String) :
    markerAt (.file d) s = false := by
  cases s <;> simp [markerAt, lookup, hasMarker]

theorem markerAt_cons (n : String) (c : Entry) (rest : EntryList)
    (m : String) (s : List String) :
    markerAt (.dir (.cons n c rest)) (m :: s) =
      if n = m then markerAt c s else markerAt (.dir rest) (m :: s) := by
  by_cases h : n = m <;> simp [markerAt, lookup, EntryList.find, h]

theorem markerAt_dirnil (m : String) (s : List String) :
    markerAt (.dir .nil) (m :: s) = false := by
  simp [markerAt, lookup, EntryList.find]

theorem allowedPath_cons (m : String) (s : List String) :
    allowedPath (m :: s) = (decide (¬ m ∈ excludedDirs) && allowedPath s) := by
  simp [allowedPath]

theorem mem_ite_singleton (P : Prop) [Decidable P] (x q : List String) :
    q ∈ (if P then [x] else []) ↔ P ∧ q = x := by
  split <;> simp_all

theorem scan_spec :
    (∀ e, wfE e = true → ∀ pre q,
      (q ∈ getLocalSkillsFrom pre e ↔
        ∃ s, q = pre ++ s ∧ s ≠ [] ∧ allowedPath s = true ∧ markerAt e s = true)) ∧
    (∀ cs, wfE (.dir cs) = true → ∀ pre q,
      (q ∈ getLocalSkillsList pre cs ↔
        ∃ s, q = pre ++ s ∧ s ≠ [] ∧ allowedPath s = true ∧
          markerAt (.dir cs) s = true)) := by
  apply entry_mutual_induction
  · intro d _ pre q
    simp only [getLocalSkillsFrom, List.not_mem_nil, false_iff]
    rintro ⟨s, hq, hs, ha, hm⟩
    cases s with
    | nil => exact hs rfl
    | cons m s2 => simp [markerAt_file] at hm
  · intro cs ih hw pre q
    simpa only [getLocalSkillsFrom] using ih hw pre q
  · intro _ pre q
    simp only [getLocalSkillsList, List.not_mem_nil, false_iff]
    rintro ⟨s, hq, hs, ha, hm⟩
    cases s with
    | nil => exact hs rfl
    | cons m s2 => simp [markerAt_dirnil] at hm
  · intro n c rest ihP ihQ hw pre q
    simp only [wfE, EntryList.nodupKeys, wfL, Bool.and_eq_true, Bool.not_eq_true'] at hw
    obtain ⟨⟨hkn, hnd⟩, hwc, hwr⟩ := hw
    have hwrest : wfE (.dir rest) = true := by simp [wfE, hnd, hwr]
    have hfr : rest.find n = none := hasKey_false_find rest n hkn
    cases c with
    | file d =>
      have hbranch : getLocalSkillsList pre (.cons n (.file d) rest) =
          getLocalSkillsList pre rest := by
        simp [getLocalSkillsList]
      rw [hbranch, ihQ hwrest pre q]
      constructor
      · rintro ⟨s, hq, hs, ha, hm⟩
        refine ⟨s, hq, hs, ha, ?_⟩
        cases s with
        | nil => exact absurd rfl hs
        | cons m s2 =>
          by_cases hmn : n = m
          · subst hmn
            simp [markerAt, lookup, hfr] at hm
          · simpa [markerAt_cons, hmn] using hm
      · rintro ⟨s, hq, hs, ha, hm⟩
        refine ⟨s, hq, hs, ha, ?_⟩
        cases s with
        | nil => exact absurd rfl hs
        | cons m s2 =>
          by_cases hmn : n = m
          · subst hmn
            simp [markerAt_cons, markerAt_file] at hm
          · rwa [markerAt_cons, if_neg hmn] at hm
    | dir cs2 =>
      by_cases hex : n ∈ excludedDirs
      · have hbranch : getLocalSkillsList pre (.cons n (.dir cs2) rest) =
            getLocalSkillsList pre rest := by
          simp [getLocalSkillsList, hex]
        rw [hbranch, ihQ hwrest pre q]
        constructor
        · rintro ⟨s, hq, hs, ha, hm⟩
          refine ⟨s, hq, hs, ha, ?_⟩
          cases s with
          | nil => exact absurd rfl hs
          | cons m s2 =>
            by_cases hmn : n = m
            · subst hmn
              simp [markerAt, lookup, hfr] at hm
            · simpa [markerAt_cons, hmn] using hm
        · rintro ⟨s, hq, hs, ha, hm⟩
          refine ⟨s, hq, hs, ha, ?_⟩
          cases s with
          | nil => exact absurd rfl hs
          | cons m s2 =>
            by_cases hmn : n = m
            · subst hmn
              simp [allowedPath_cons, hex] at ha
            · rwa [markerAt_cons, if_neg hmn] at hm
      · have hbranch : getLocalSkillsList pre (.cons n (.dir cs2) rest) =
            ((if hasMarker (.dir cs2) then [pre ++ [n]] else [])
              ++ getLocalSkillsFrom (pre ++ [n]) (.dir cs2))
              ++ getLocalSkillsList pre rest := by
          simp [getLocalSkillsList, hex]
        rw [hbranch]
        simp only [List.mem_append, mem_ite_singleton]
        rw [ihP hwc (pre ++ [n]) q, ihQ hwrest pre q]
        constructor
        · rintro ((⟨hmk, hq1⟩ | ⟨t, hq, ht, hat, hmt⟩) | ⟨s, hq, hs, ha, hm⟩)
          · refine ⟨[n], hq1, by simp, ?_, ?_⟩
            · simp [allowedPath_cons, allowedPath, hex]
            · simp [markerAt_cons, markerAt_nil, hmk]
          · refine ⟨n :: t, ?_, by simp, ?_, ?_⟩
            · simpa [List.append_assoc] using hq
            · simp [allowedPath_cons, hex, hat]
            · simp [markerAt_cons, hmt]
          · refine ⟨s, hq, hs, ha, ?_⟩
            cases s with
            | nil => exact absurd rfl hs
            | cons m s2 =>
              by_cases hmn : n = m
              · subst hmn
                simp [markerAt, lookup, hfr] at hm
              · simpa [markerAt_cons, hmn] using hm
        · rintro ⟨s, hq, hs, ha, hm⟩
          cases s with
          | nil => exact absurd rfl hs
          | cons m s2 =>
            by_cases hmn : n = m
            · subst hmn
              rw [markerAt_cons, if_pos rfl] at hm
              rw [allowedPath_cons] at ha
              simp only [Bool.and_eq_true] at ha
              cases s2 with
              | nil =>
                rw [markerAt_nil] at hm
                exact Or.inl (Or.inl ⟨hm, by simpa using hq⟩)
              | cons m2 s3 =>
                refine Or.inl (Or.inr ⟨m2 :: s3, ?_, by simp, ha.2, hm⟩)
                simpa [List.append_assoc] using hq
            · exact Or.inr ⟨m :: s2, hq, by simp, ha,
                by rwa [markerAt_cons, if_neg hmn] at hm⟩

theorem walk_spec :
    (∀ e, wfE e = true → ∀ pre q,
      (q ∈ walkInstalledFrom pre e ↔
        ∃ s, q = pre ++ s ∧ s ≠ [] ∧ markerAt e s = true)) ∧
    (∀ cs, wfE (.dir cs) = true → ∀ pre q,
      (q ∈ walkInstalledList pre cs ↔
        ∃ s, q = pre ++ s ∧ s ≠ [] ∧ markerAt (.dir cs) s = true)) := by
  apply entry_mutual_induction
  · intro d _ pre q
    simp only [walkInstalledFrom, List.not_mem_nil, false_iff]
    rintro ⟨s, hq, hs, hm⟩
    cases s with
    | nil => exact hs rfl
    | cons m s2 => simp [markerAt_file] at hm
  · intro cs ih hw pre q
    simpa only [walkInstalledFrom] using ih hw pre q
  · intro _ pre q
    simp only [walkInstalledList, List.not_mem_nil, false_iff]
    rintro ⟨s, hq, hs, hm⟩
    cases s with
    | nil => exact hs rfl
    | cons m s2 => simp [markerAt_dirnil] at hm
  · intro n c rest ihP ihQ hw pre q
    simp only [wfE, EntryList.nodupKeys, wfL, Bool.and_eq_true, Bool.not_eq_true'] at hw
    obtain ⟨⟨hkn, hnd⟩, hwc, hwr⟩ := hw
    have hwrest : wfE (.dir rest) = true := by simp [wfE, hnd, hwr]
    have hfr : rest.find n = none := hasKey_false_find rest n hkn
    cases c with
    | file d =>
      have hbranch : walkInstalledList pre (.cons n (.file d) rest) =
          walkInstalledList pre rest := by
        simp [walkInstalledList]
      rw [hbranch, ihQ hwrest pre q]
      constructor
      · rintro ⟨s, hq, hs, hm⟩
        refine ⟨s, hq, hs, ?_⟩
        cases s with
        | nil => exact absurd rfl hs
        | cons m s2 =>
          by_cases hmn : n = m
          · subst hmn
            simp [markerAt, lookup, hfr] at hm
          · simpa [markerAt_cons, hmn] using hm
      · rintro ⟨s, hq, hs, hm⟩
        refine ⟨s, hq, hs, ?_⟩
        cases s with
        | nil => exact absurd rfl hs
        | cons m s2 =>
          by_cases hmn : n = m
          · subst hmn
            simp [markerAt_cons, markerAt_file] at hm
          · rwa [markerAt_cons, if_neg hmn] at hm
    | dir cs2 =>
      have hbranch : walkInstalledList pre (.cons n (.dir cs2) rest) =
          ((if hasMarker (.dir cs2) then [pre ++ [n]] else [])
            ++ walkInstalledFrom (pre ++ [n]) (.dir cs2))
            ++ walkInstalledList pre rest := by
        simp [walkInstalledList]
      rw [hbranch]
      simp only [List.mem_append, mem_ite_singleton]
      rw [ihP hwc (pre ++ [n]) q, ihQ hwrest pre q]
      constructor
      · rintro ((⟨hmk, hq1⟩ | ⟨t, hq, ht, hmt⟩) | ⟨s, hq, hs, hm⟩)
        · refine ⟨[n], hq1, by simp, ?_⟩
          simp [markerAt_cons, markerAt_nil, hmk]
        · refine ⟨n :: t, ?_, by simp, ?_⟩
          · simpa [List.append_assoc] using hq
          · simp [markerAt_cons, hmt]
        · refine ⟨s, hq, hs, ?_⟩
          cases s with
          | nil => exact absurd rfl hs
          | cons m s2 =>
            by_cases hmn : n = m
            · subst hmn
              simp [markerAt, lookup, hfr] at hm
            · simpa [markerAt_cons, hmn] using hm
      · rintro ⟨s, hq, hs, hm⟩
        cases s with
        | nil => exact absurd rfl hs
        | cons m s2 =>
          by_cases hmn : n = m
          · subst hmn
            rw [markerAt_cons, if_pos rfl] at hm
            cases s2 with
            | nil =>
              rw [markerAt_nil] at hm
              exact Or.inl (Or.inl ⟨hm, by simpa using hq⟩)
            | cons m2 s3 =>
              refine Or.inl (Or.inr ⟨m2 :: s3, ?_, by simp, hm⟩)
              simpa [List.append_assoc] using hq
          · exact Or.inr ⟨m :: s2, hq, by simp,
              by rwa [markerAt_cons, if_neg hmn] at hm⟩

theorem markerAt_dir_elim (cs : EntryList) (m : String) (s : List String)
    (hm : markerAt (.dir cs) (m :: s) = true) :
    ∃ c, cs.find m = some c ∧ markerAt c s = true := by
  rcases h : cs.find m with _ | c
  · simp [markerAt, lookup, h] at hm
  · exact ⟨c, rfl, by simpa [markerAt, lookup, h] using hm⟩

theorem markerAt_true_dir (c : Entry) (s : List String)
    (hm : markerAt c s = true) : ∃ cs, c = .dir cs := by
  cases c with
  | file d => simp [markerAt_file] at hm
  | dir cs => exact ⟨cs, rfl⟩

theorem noExclL_find :
    ∀ cs : EntryList, noExclL cs = true → ∀ (m : String) (cs3 : EntryList),
      cs.find m = some (.dir cs3) →
      ¬ m ∈ excludedDirs ∧ noExclE (.dir cs3) = true := by
  apply entryList_induction
  · intro _ m cs3 h2
    simp [EntryList.find] at h2
  · intro n c rest ih h1 m cs3 h2
    simp only [noExclL, Bool.and_eq_true] at h1
    by_cases hm : n = m
    · subst hm
      simp [EntryList.find] at h2
      subst h2
      have h3 : decide (¬ n ∈ excludedDirs) = true := h1.1.1
      exact ⟨of_decide_eq_true h3, h1.1.2⟩
    · simp only [EntryList.find, if_neg hm] at h2
      exact ih h1.2 m cs3 h2

theorem noExcl_marker_allowed :
    ∀ (s : List String) (e : Entry), noExclE e = true → markerAt e s = true →
      allowedPath s = true := by
  intro s
  induction s with
  | nil => intro e _ _; rfl
  | cons m s2 ih =>
    intro e hne hm
    obtain ⟨cs, rfl⟩ := markerAt_true_dir e (m :: s2) hm
    obtain ⟨c, hfind, hmc⟩ := markerAt_dir_elim cs m s2 hm
    obtain ⟨cs2, rfl⟩ := markerAt_true_dir c s2 hmc
    have hne2 : noExclL cs = true := by simpa [noExclE] using hne
    obtain ⟨hnm, hnc⟩ := noExclL_find cs hne2 m cs2 hfind
    rw [allowedPath_cons]
    simp [hnm, ih (.dir cs2) hnc hmc]

theorem walk_eq_scan (store : Entry) (hw : wfE store = true)
    (hne : noExclE store = true) (p : List String) :
    p ∈ walkInstalledFrom [] store ↔ p ∈ getLocalSkills store := by
  simp only [getLocalSkills]
  rw [walk_spec.1 store hw [] p, scan_spec.1 store hw [] p]
  constructor
  · rintro ⟨s, hq, hs, hm⟩
    exact ⟨s, hq, hs, noExcl_marker_allowed s store hne hm, hm⟩
  · rintro ⟨s, hq, hs, _, hm⟩
    exact ⟨s, hq, hs, hm⟩

theorem install_skip (repo store : Entry) (p : List String)
    (h : (lookup store p).isSome = true) :
    installLocalSkill repo store p = (.skipped, store) := by
  simp [installLocalSkill, h]

theorem install_not_skipped (repo store : Entry) (p : List String)
    (h : (lookup store p).isSome = false) :
    (installLocalSkill repo store p).1 ≠ .skipped := by
  simp only [installLocalSkill]
  rw [if_neg (by simp [h])]
  split
  · simp
  · split
    · simp
    · split <;> simp

theorem install_installed_spec (repo store : Entry) (p : List String)
    (hwr : wfE repo = true) (hws : wfE store = true)
    (hres : (installLocalSkill repo store p).1 = .installed) :
    lookup (installLocalSkill repo store p).2 p = lookup repo p ∧
    wfE (installLocalSkill repo store p).2 = true ∧
    (lookup store p).isSome = false := by
  rcases hb : (lookup store p).isSome with _ | _
  · rcases hI : installLocalSkill repo store p with ⟨r, store2⟩
    rw [hI] at hres
    replace hres : r = InstallResult.installed := hres
    subst hres
    have hI2 := hI
    simp only [installLocalSkill, hb, Bool.false_eq_true, if_false] at hI2
    simp only [hI, hb]
    rcases hpar : (lookup store p.dropLast).isSome with _ | _
    · rw [if_neg (by simp [hpar])] at hI2
      rcases hmk : mkdirp store p.dropLast with _ | store1
      · simp [hmk] at hI2
      · simp only [hmk] at hI2
        rcases hsrc : lookup repo p with _ | src
        · simp [hsrc] at hI2
        · simp only [hsrc] at hI2
          rcases hins : insertAt store1 p src with _ | store3
          · simp [hins] at hI2
          · simp only [hins, Prod.mk.injEq] at hI2
            obtain ⟨-, h3⟩ := hI2
            subst h3
            have hw1 : wfE store1 = true := wf_mkdirp p.dropLast store store1 hws hmk
            refine ⟨?_, ?_, trivial⟩
            · simp [insertAt_lookup p store1 src store3 hins, hsrc]
            · exact wf_insertAt p store1 src store3 hw1
                (wf_lookup p repo src hwr hsrc) hins
    · rw [if_pos hpar] at hI2
      rcases hsrc : lookup repo p with _ | src
      · simp [hsrc] at hI2
      · simp only [hsrc] at hI2
        rcases hins : insertAt store p src with _ | store3
        · simp [hins] at hI2
        · simp only [hins, Prod.mk.injEq] at hI2
          obtain ⟨-, h3⟩ := hI2
          subst h3
          refine ⟨?_, ?_, trivial⟩
          · simp [insertAt_lookup p store src store3 hins, hsrc]
          · exact wf_insertAt p store src store3 hws
              (wf_lookup p repo src hwr hsrc) hins
  · rw [install_skip repo store p hb] at hres
    simp at hres

/-- Claim C1: for every well-formed directory tree, the scanner
`getLocalSkills` returns exactly the relative paths of the descendant
directories that directly contain `SKILL.md` and none of whose path
components is an excluded infrastructure directory name (`bin`, `.git`,
`node_modules` are pruned together with their entire subtrees); because the
walk keeps descending after a match, a Skill nested inside another Skill's
subtree satisfies the same characterisation and is returned as well. -/
theorem scanner_exact (root : Entry) (p : List String) (hw : wfE root = true) :
    p ∈ getLocalSkills root ↔
      p ≠ [] ∧ allowedPath p = true ∧ markerAt root p = true := by
  have h := scan_spec.1 root hw [] p
  simpa [getLocalSkills] using h

/-- Witness for C1 at the repository-shaped demonstration tree. -/
theorem scanner_exact_witness :
    wfE demoRepo = true ∧
    (["mobile", "android-expert"] ∈ getLocalSkills demoRepo ↔
      ["mobile", "android-expert"] ≠ ([] : List String) ∧
        allowedPath ["mobile", "android-expert"] = true ∧
        markerAt demoRepo ["mobile", "android-expert"] = true) :=
  ⟨by decide, scanner_exact demoRepo ["mobile", "android-expert"] (by decide)⟩

/-- Claim C2: when the Store already holds an entry at the identifier, a
further `installLocalSkill` call with the same identifier is a no-op
reported as skipped: it never errors, never overwrites, and returns the
Store unchanged, so the already-installed copy stays byte-identical. -/
theorem installer_skips_existing (repo store : Entry) (p : List String)
    (h : (lookup store p).isSome = true) :
    installLocalSkill repo store p = (.skipped, store) :=
  install_skip repo store p h

/-- Witness for C2: install `mobile/android-expert` into an empty Store,
then run the installer again on the resulting Store. -/
theorem installer_skips_existing_witness :
    installLocalSkill demoRepo
        (installLocalSkill demoRepo emptyStore ["mobile", "android-expert"]).2
        ["mobile", "android-expert"]
      = (.skipped,
         (installLocalSkill demoRepo emptyStore ["mobile", "android-expert"]).2) :=
  installer_skips_existing demoRepo _ ["mobile", "android-expert"] (by decide)

/-- Claim C3 (code bug): `mobile/android-expert` is a genuine local nested
skill of the demonstration repository (its directory holds `SKILL.md`), yet
`add mobile/android-expert` never reaches the local Installer: because the
target contains a path separator the handler routes it to the external
`skills.sh` CLI (cli.js line 155), contradicting the claim and the
repository README's own example `skills add mobile/android-expert`. -/
theorem add_nested_path_goes_remote :
    markerAt demoRepo ["mobile", "android-expert"] = true ∧
    splitPath "mobile/android-expert" = ["mobile", "android-expert"] ∧
    addCommand demoRepo emptyStore "mobile/android-expert" = .delegatedRemote :=
  ⟨by decide, by decide, rfl⟩

/-- Counterexample for C4: removing a name with no Store entry is not a
`NotInstalled` failure: the handler delegates to the external `skills.sh`
CLI, leaves the filesystem untouched, and exits 0. -/
theorem remove_missing_delegates :
    removeCommand demoFs demoStorePath "nonexistent" = (.delegated, demoFs) ∧
    removeExitCode (removeCommand demoFs demoStorePath "nonexistent").1 = 0 :=
  ⟨rfl, rfl⟩

/-- Claim C4 (amended): `remove <name>` recursively deletes
`store_root/name` when some entry exists there, after which no entry remains
at that path; when no entry exists it does not fail with `NotInstalled`: it
delegates removal to the external `skills.sh` CLI with the local filesystem
unchanged; the handler exits 0 on both branches. -/
theorem remove_cmd_behavior (fs : Entry) (sp : List String) (name : String)
    (hw : wfE fs = true) :
    ((lookup fs (normJoin sp (splitPath name))).isSome = false →
      removeCommand fs sp name = (.delegated, fs)) ∧
    ((lookup fs (normJoin sp (splitPath name))).isSome = true →
      normJoin sp (splitPath name) ≠ [] →
      (removeCommand fs sp name).1 = .removed (normJoin sp (splitPath name)) ∧
      lookup (removeCommand fs sp name).2 (normJoin sp (splitPath name)) = none) ∧
    removeExitCode (removeCommand fs sp name).1 = 0 := by
  refine ⟨?_, ?_, ?_⟩
  · intro h
    simp [removeCommand, h]
  · intro h hne
    constructor
    · simp [removeCommand, h]
    · have h2 : (removeCommand fs sp name).2
          = removeAt fs (normJoin sp (splitPath name)) := by
        simp [removeCommand, h]
      rw [h2]
      exact removeAt_lookup (normJoin sp (splitPath name)) fs hne hw
  · cases hx : (removeCommand fs sp name).1 <;> rfl

/-- Witness for C4 at a Store holding `oldskill`. -/
theorem remove_cmd_behavior_witness :
    (removeCommand demoFsInstalled demoStorePath "oldskill").1
      = .removed (normJoin demoStorePath (splitPath "oldskill")) ∧
    lookup (removeCommand demoFsInstalled demoStorePath "oldskill").2
      (normJoin demoStorePath (splitPath "oldskill")) = none :=
  (remove_cmd_behavior demoFsInstalled demoStorePath "oldskill" (by decide)).2.1
    (by decide) (by decide)

/-- Claim C5: on every exit path of the remote fetch-and-install operation,
that is clone failure, validation failure, install error or skip, and
success, the temporary clone directory created by the call is removed before
the operation returns. -/
theorem fetch_cleanup (url : String) (identifier subpath : Option (List String))
    (cloneOutcome : Option Entry) (store : Entry) :
    (fetchAndInstall url identifier subpath cloneOutcome store).tempCloneRemains
      = false := by
  rcases cloneOutcome with _ | clone
  · rfl
  · rcases subpath with _ | sp
    · by_cases hm : hasMarker clone = true <;> simp [fetchAndInstall, hm]
    · rcases h2 : lookup clone sp with _ | src
      · simp [fetchAndInstall, h2]
      · by_cases hm : hasMarker src = true <;> simp [fetchAndInstall, h2, hm]

/-- Counterexample for C6: with a stray plain file `mobile` in the Store,
syncing the demonstration repository crashes on the first discovered skill
(the copy throws `ENOTDIR`), the remaining skill `web/seo` is never
attempted, and the command does not reach `process.exit(0)`. -/
theorem sync_crash_counterexample :
    syncCommand demoRepo fileBlockedStore
      = .crashed fileBlockedStore [["web", "seo"]] ∧
    (installLocalSkill demoRepo fileBlockedStore
        ["mobile", "android-expert"]).1 = .errored ∧
    (lookup fileBlockedStore ["web", "seo"]).isSome = false :=
  ⟨rfl, by decide, by decide⟩

/-- Claim C6 (amended): the no-argument sync loop installs the discovered
skills in order, but it has no per-skill error isolation: as soon as one
`installLocalSkill` call throws, the remaining skills are abandoned and the
process dies with the exception instead of exiting 0. -/
theorem sync_aborts_on_error (repo store : Entry) (p : List String)
    (ps : List (List String))
    (h : (installLocalSkill repo store p).1 = .errored) :
    syncInstallAll repo store (p :: ps)
      = .crashed (installLocalSkill repo store p).2 ps := by
  rcases hI : installLocalSkill repo store p with ⟨r, s2⟩
  rw [hI] at h
  replace h : r = InstallResult.errored := h
  subst h
  simp [syncInstallAll, hI]

/-- Witness for C6: the erroring head skill crashes the sync loop with the
tail left unprocessed. -/
theorem sync_aborts_on_error_witness :
    syncInstallAll demoRepo fileBlockedStore
        [["mobile", "android-expert"], ["web", "seo"]]
      = .crashed
          (installLocalSkill demoRepo fileBlockedStore
            ["mobile", "android-expert"]).2
          [["web", "seo"]] :=
  sync_aborts_on_error demoRepo fileBlockedStore ["mobile", "android-expert"]
    [["web", "seo"]] (by decide)

/-- Counterexample for C7: a Store entry under `node_modules` is reported by
the installed-skill walker but pruned by the scanner, so the two
enumerations differ. -/
theorem walk_vs_scanner_divergence :
    listInstalled (some nodeModulesStore) = [["node_modules", "foo"]] ∧
    getLocalSkills nodeModulesStore = [] := by decide

/-- Claim C7 (amended): the installed-skill enumeration yields the empty set
when the Store root does not exist, and on a well-formed Store it yields
exactly the nonempty relative paths of marker directories with no pruning of
the excluded infrastructure names; hence it coincides with the Scanner
exactly on Stores containing no excluded-named directory. -/
theorem walk_installed_spec :
    listInstalled none = [] ∧
    (∀ store, wfE store = true → ∀ p,
      (p ∈ listInstalled (some store) ↔ p ≠ [] ∧ markerAt store p = true)) ∧
    (∀ store, wfE store = true → noExclE store = true → ∀ p,
      (p ∈ listInstalled (some store) ↔ p ∈ getLocalSkills store)) := by
  refine ⟨rfl, ?_, ?_⟩
  · intro store hw p
    have h := walk_spec.1 store hw [] p
    simpa [listInstalled] using h
  · intro store hw hne p
    simpa [listInstalled] using walk_eq_scan store hw hne p

/-- Witness for C7 at the `node_modules` Store. -/
theorem walk_installed_spec_witness :
    ["node_modules", "foo"] ∈ listInstalled (some nodeModulesStore) ↔
      ["node_modules", "foo"] ≠ ([] : List String) ∧
        markerAt nodeModulesStore ["node_modules", "foo"] = true :=
  walk_installed_spec.2.1 nodeModulesStore (by decide) ["node_modules", "foo"]

/-- Counterexample for C8: installing the marker-bearing directory `bin`
succeeds and the Store entry exists afterwards, yet the Scanner over the
Store prunes `bin` and does not include the identifier. -/
theorem install_bin_not_listed :
    markerAt binSkillRepo ["bin"] = true ∧
    (installLocalSkill binSkillRepo emptyStore ["bin"]).1 = .installed ∧
    (lookup (installLocalSkill binSkillRepo emptyStore ["bin"]).2
        ["bin"]).isSome = true ∧
    getLocalSkills (installLocalSkill binSkillRepo emptyStore ["bin"]).2 = [] := by
  decide

/-- Claim C8 (amended): for well-formed roots, when the source directory
directly contains the manifest marker, no component of the identifier is an
excluded infrastructure name, and the installer performed the copy, the
Store afterwards holds exactly the source subtree at the identifier (so the
entry exists) and the Scanner over the Store lists the identifier. -/
theorem install_roundtrip (repo store : Entry) (p : List String)
    (hwr : wfE repo = true) (hws : wfE store = true)
    (hm : markerAt repo p = true) (ha : allowedPath p = true)
    (hres : (installLocalSkill repo store p).1 = .installed) :
    lookup (installLocalSkill repo store p).2 p = lookup repo p ∧
    (lookup (installLocalSkill repo store p).2 p).isSome = true ∧
    p ∈ getLocalSkills (installLocalSkill repo store p).2 := by
  obtain ⟨hl, hw2, hns⟩ := install_installed_spec repo store p hwr hws hres
  have hp : p ≠ [] := by
    intro h
    subst h
    simp [lookup] at hns
  have hm2 : markerAt (installLocalSkill repo store p).2 p = true := by
    have h3 : markerAt (installLocalSkill repo store p).2 p = markerAt repo p := by
      simp [markerAt, hl]
    rw [h3]; exact hm
  refine ⟨hl, ?_, ?_⟩
  · rw [hl]
    rcases hx : lookup repo p with _ | src
    · simp [markerAt, hx] at hm
    · simp
  · simp only [getLocalSkills]
    exact (scan_spec.1 _ hw2 [] p).2 ⟨p, by simp, hp, ha, hm2⟩

/-- Witness for C8: a fresh install of `web/seo` into an empty Store. -/
theorem install_roundtrip_witness :
    lookup (installLocalSkill demoRepo emptyStore ["web", "seo"]).2 ["web", "seo"]
        = lookup demoRepo ["web", "seo"] ∧
    (lookup (installLocalSkill demoRepo emptyStore ["web", "seo"]).2
        ["web", "seo"]).isSome = true ∧
    ["web", "seo"] ∈ getLocalSkills
        (installLocalSkill demoRepo emptyStore ["web", "seo"]).2 :=
  install_roundtrip demoRepo emptyStore ["web", "seo"] (by decide) (by decide)
    (by decide) (by decide) (by decide)

/-- Claim C9: the installer's skip decision depends solely on the existence
of some filesystem entry at the target path: it reports skipped exactly when
an entry of any kind (also a plain file or a marker-less directory) exists
at `store/identifier`, and in that case it copies nothing. -/
theorem install_skip_iff (repo store : Entry) (p : List String) :
    ((installLocalSkill repo store p).1 = .skipped ↔
      (lookup store p).isSome = true) ∧
    ((lookup store p).isSome = true →
      installLocalSkill repo store p = (.skipped, store)) := by
  refine ⟨?_, fun h => install_skip repo store p h⟩
  rcases hb : (lookup store p).isSome with _ | _
  · exact iff_of_false (install_not_skipped repo store p hb) (by simp [hb])
  · simp [install_skip repo store p hb]

/-- Witness for C9: the Store entry `mobile` is a plain file, not a skill,
yet the installer skips and copies nothing. -/
theorem install_skip_iff_witness :
    installLocalSkill demoRepo fileBlockedStore ["mobile"]
      = (.skipped, fileBlockedStore) :=
  (install_skip_iff demoRepo fileBlockedStore ["mobile"]).2 (by decide)

/-- Claim C10: the remove handler joins the unsanitised name to the Store
path, so an identifier with a `..` segment resolves outside the Store; with
`../victim` the handler deletes the existing `victim` directory even though
its path does not extend the Store path. -/
theorem remove_escapes_store :
    List.isPrefixOf demoStorePath
        (normJoin demoStorePath (splitPath "../victim")) = false ∧
    (lookup demoFs (normJoin demoStorePath (splitPath "../victim"))).isSome
      = true ∧
    (removeCommand demoFs demoStorePath "../victim").1
      = .removed (normJoin demoStorePath (splitPath "../victim")) ∧
    (lookup (removeCommand demoFs demoStorePath "../victim").2
        (normJoin demoStorePath (splitPath "../victim"))).isSome = false := by
  decide
